import Mathlib

/-!
Verification of the cobs-rs COBS codec (src/lib.rs).

The two public operations `stuff` (encode) and `unstuff` (decode) are embedded
shallowly: fixed-size `[u8; N]` buffers become `List Nat` values whose length
plays the role of the const-generic size, bytes are `Nat` values (callers pass
values < 256; the embedding never creates a byte value that a `u8` could not
hold), and every Rust panic site (indexing out of bounds, `try_into().unwrap()`
on a distance that does not fit a `u8`, the explicit
`panic!("No marker value found!")`) is modeled as an `Except` error so that
panic-freedom is provable.  Wrapping `u8` arithmetic
(`buff[0] - 1`, `until_next_marker -= 1`) follows release-mode semantics:
it wraps modulo 256 (`u8wrapDec`); debug builds would abort on the same inputs,
which never arise on well-formed frames.
-/

namespace Cobs

/-- The distinct abort conditions of the Rust code: an out-of-bounds array
index panic, an arithmetic/`try_into` overflow panic, and the dedicated
`panic!("No marker value found!")` in `unstuff`. -/
inductive Err where
  | oob
  | overflow
  | noMarker
deriving DecidableEq, Repr

/-- `struct MarkerInfo { index: usize, points_to: usize }` — position of the
most recently placed distance byte and the output position at which the next
forced distance byte must land. -/
structure MarkerInfo where
  index : Nat
  points_to : Nat
deriving DecidableEq, Repr

/-- Checked array read `l[i]`: panics (errors) when `i` is out of bounds. -/
def getB (l : List Nat) (i : Nat) : Except Err Nat :=
  if i < l.length then .ok (l.getD i 0) else .error .oob

/-- Checked array write `l[i] = v`: panics (errors) when `i` is out of bounds. -/
def setB (l : List Nat) (i : Nat) (v : Nat) : Except Err (List Nat) :=
  if i < l.length then .ok (l.set i v) else .error .oob

/-- `MarkerInfo::adjust_accordingly`: write `new_index - self.index` (which
must fit in a `u8`, else `try_into().unwrap()` panics; a `usize` underflow
also ends in an abort) into the buffer at `self.index`, then advance
`index` to `new_index` and `points_to` to `new_index + 0xff`. -/
def adjust_accordingly (lm : MarkerInfo) (out_buffer : List Nat)
    (new_index : Nat) : Except Err (MarkerInfo × List Nat) :=
  if lm.index ≤ new_index ∧ new_index - lm.index ≤ 255 then do
    let ob ← setB out_buffer lm.index (new_index - lm.index)
    .ok (⟨new_index, new_index + 0xff⟩, ob)
  else .error .overflow

/-- The `for i in 0..INPUT` loop body of `stuff`, walking the remaining input
bytes; `i` is the current input index, `overhead_bytes` and `last_marker` are
the loop-carried state, and the current output buffer is threaded through.
Returns the final buffer, tracker and overhead count. -/
def stuffLoop (marker : Nat) :
    List Nat → Nat → Nat → MarkerInfo → List Nat →
      Except Err (List Nat × MarkerInfo × Nat)
  | [], _, overhead_bytes, last_marker, output_buffer =>
    .ok (output_buffer, last_marker, overhead_bytes)
  | value :: rest, i, overhead_bytes, last_marker, output_buffer => do
    if last_marker.points_to = overhead_bytes + i then do
      let (lm, ob) ← adjust_accordingly last_marker output_buffer (overhead_bytes + i)
      let overhead_bytes := overhead_bytes + 1
      if value = marker then do
        let (lm, ob) ← adjust_accordingly lm ob (overhead_bytes + i)
        stuffLoop marker rest (i + 1) overhead_bytes lm ob
      else do
        let ob ← setB ob (overhead_bytes + i) value
        stuffLoop marker rest (i + 1) overhead_bytes lm ob
    else
      if value = marker then do
        let (lm, ob) ← adjust_accordingly last_marker output_buffer (overhead_bytes + i)
        stuffLoop marker rest (i + 1) overhead_bytes lm ob
      else do
        let ob ← setB output_buffer (overhead_bytes + i) value
        stuffLoop marker rest (i + 1) overhead_bytes last_marker ob

/-- The tail of `stuff` after the loop: close the last distance byte with
`output_buffer[last_marker.index] = (INPUT + overhead_bytes - last_marker.index)
.try_into().unwrap()`.  `total` is the const generic `INPUT`; the loop is
entered at input index `i` with the remaining bytes `buff`, so `stuff` calls
this with `i = 0` and `total = buff.length`. -/
def stuffFinish (marker total : Nat) (buff : List Nat) (i overhead_bytes : Nat)
    (last_marker : MarkerInfo) (output_buffer : List Nat) :
    Except Err (List Nat) := do
  let (ob, lm, oh) ← stuffLoop marker buff i overhead_bytes last_marker output_buffer
  if lm.index ≤ total + oh ∧ total + oh - lm.index ≤ 255 then
    setB ob lm.index (total + oh - lm.index)
  else .error .overflow

/-- `pub fn stuff<const INPUT, const OUTPUT>(buff: [u8; INPUT], marker: u8) -> [u8; OUTPUT]`:
initialize the output to `[marker; OUTPUT]`, run the loop starting with
`last_marker = MarkerInfo { index: 0, points_to: 0xff }` and
`overhead_bytes = 1`, then patch the final distance byte. -/
def stuff (buff : List Nat) (marker : Nat) (OUTPUT : Nat) :
    Except Err (List Nat) :=
  stuffFinish marker buff.length buff 0 1 ⟨0, 0xff⟩ (List.replicate OUTPUT marker)

/-- Release-mode `u8` decrement: `x - 1` wrapping modulo 256. -/
def u8wrapDec (x : Nat) : Nat := (x + 255) % 256

/-- The `loop` of `unstuff`.  `fuel` only bounds the recursion depth; the
Rust loop needs at most `buff.length` iterations (starting at `i = 1`, the
index grows by one per iteration and the read `buff[i]` aborts at
`i = buff.length`), and `unstuff` supplies exactly that much fuel, so the
fuel-exhaustion branch is unreachable.  Returns the output buffer, the break
index (the input index holding the terminator) and the final overhead count. -/
def unstuffLoop (buff : List Nat) (marker : Nat) :
    Nat → Nat → Nat → Bool → Nat → List Nat →
      Except Err (List Nat × Nat × Nat)
  | 0, _, _, _, _, _ => .error .oob
  | fuel + 1, i, until_next_marker, next_is_overhead_byte, overhead_bytes,
      output_buffer => do
    let value ← getB buff i
    if value = marker then
      .ok (output_buffer, i, overhead_bytes)
    else
      if until_next_marker = 0 then do
        let (overhead_bytes, output_buffer) ←
          if next_is_overhead_byte then
            (.ok (overhead_bytes + 1, output_buffer) : Except Err (Nat × List Nat))
          else do
            let ob ← setB output_buffer (i - overhead_bytes) marker
            .ok (overhead_bytes, ob)
        if i < buff.length then
          unstuffLoop buff marker fuel (i + 1) (u8wrapDec value)
            (value == 0xff) overhead_bytes output_buffer
        else .error .noMarker
      else do
        let output_buffer ← setB output_buffer (i - overhead_bytes) value
        if i < buff.length then
          unstuffLoop buff marker fuel (i + 1) (u8wrapDec until_next_marker)
            next_is_overhead_byte overhead_bytes output_buffer
        else .error .noMarker

/-- `pub fn unstuff<const INPUT, const OUTPUT>(buff: [u8; INPUT], marker: u8)
-> ([u8; OUTPUT], usize)`: zero-fill the output, read the initial distance
byte, run the loop from `i = 1`, and return the buffer together with the
break index plus one. -/
def unstuff (buff : List Nat) (marker : Nat) (OUTPUT : Nat) :
    Except Err (List Nat × Nat) := do
  let output_buffer := List.replicate OUTPUT 0
  let first ← getB buff 0
  let (ob, brk, _oh) ← unstuffLoop buff marker buff.length 1
    (u8wrapDec first) (first == 0xff) 1 output_buffer
  .ok (ob, brk + 1)

/-- Functional characterization of the frame `stuff` produces, derived from
the source for the correctness proofs.  `encAux marker d b` describes the
frame from the pending (yet unpatched) distance byte onward, when the pending
byte sits `d` output positions before the current write position (so `d - 1`
bytes of the current run are already emitted): the first component is the
value the pending distance byte will finally receive, the second is the list
of frame bytes from the current write position up to and including the
terminator. -/
def encAux (marker : Nat) (d : Nat) : List Nat → Nat × List Nat
  | [] => (d, [marker])
  | value :: rest =>
    if d = 255 then
      if value = marker then
        (255, 1 :: (encAux marker 1 rest).fst :: (encAux marker 1 rest).snd)
      else
        (255, (encAux marker 2 rest).fst :: value :: (encAux marker 2 rest).snd)
    else
      if value = marker then
        (d, (encAux marker 1 rest).fst :: (encAux marker 1 rest).snd)
      else
        ((encAux marker (d + 1) rest).fst, value :: (encAux marker (d + 1) rest).snd)

/-! ## Basic computation lemmas -/

theorem ok_bind {α β : Type} (a : α) (f : α → Except Err β) :
    (Except.ok a >>= f : Except Err β) = f a := rfl

theorem getB_eq (l : List Nat) (i : Nat) (h : i < l.length) :
    getB l i = .ok (l.getD i 0) := by
  simp [getB, h]

theorem setB_eq (l : List Nat) (i v : Nat) (h : i < l.length) :
    setB l i v = .ok (l.set i v) := by
  simp [setB, h]

theorem adjust_eq (lm : MarkerInfo) (out : List Nat) (ni : Nat)
    (h1 : lm.index ≤ ni) (h2 : ni - lm.index ≤ 255) (h3 : lm.index < out.length) :
    adjust_accordingly lm out ni
      = .ok (⟨ni, ni + 255⟩, out.set lm.index (ni - lm.index)) := by
  simp [adjust_accordingly, setB, h1, h2, h3]
  rfl

theorem u8wrapDec_eq (x : Nat) (h1 : 1 ≤ x) (h2 : x ≤ 255) :
    u8wrapDec x = x - 1 := by
  unfold u8wrapDec
  have hx : x + 255 = 256 + (x - 1) := by omega
  rw [hx, Nat.add_mod_left, Nat.mod_eq_of_lt (by omega)]

/-! ## List index helper lemmas -/

theorem getD_set_ne (l : List Nat) (i j v d : Nat) (h : i ≠ j) :
    (l.set i v).getD j d = l.getD j d := by
  induction l generalizing i j with
  | nil => simp
  | cons a t ih =>
    cases i with
    | zero => cases j with
      | zero => omega
      | succ j2 => simp [List.set, List.getD]
    | succ i2 => cases j with
      | zero => simp [List.set, List.getD]
      | succ j2 => simpa [List.set, List.getD] using ih i2 j2 (by omega)

theorem getD_set_self (l : List Nat) (i v d : Nat) (h : i < l.length) :
    (l.set i v).getD i d = v := by
  induction l generalizing i with
  | nil => simp at h
  | cons a t ih =>
    cases i with
    | zero => simp [List.set, List.getD]
    | succ i2 => simpa [List.set, List.getD] using ih i2 (by simpa using h)

theorem take_set_succ (l : List Nat) (n c : Nat) (h : n < l.length) :
    (l.set n c).take (n + 1) = l.take n ++ [c] := by
  induction l generalizing n with
  | nil => simp at h
  | cons a t ih =>
    cases n with
    | zero => simp
    | succ n2 => simpa using ih n2 (by simpa using h)

theorem drop_set_lt (l : List Nat) (p n v : Nat) (h : p < n) :
    (l.set p v).drop n = l.drop n := by
  induction l generalizing p n with
  | nil => simp
  | cons a t ih =>
    cases p with
    | zero =>
      cases n with
      | zero => omega
      | succ n2 => simp
    | succ p2 =>
      cases n with
      | zero => omega
      | succ n2 => simpa using ih p2 n2 (by omega)

theorem take_set_ge (l : List Nat) (p n v : Nat) (h : n ≤ p) :
    (l.set p v).take n = l.take n := by
  induction l generalizing p n with
  | nil => simp
  | cons a t ih =>
    cases p with
    | zero =>
      cases n with
      | zero => simp
      | succ n2 => omega
    | succ p2 =>
      cases n with
      | zero => simp
      | succ n2 => simpa using ih p2 n2 (by omega)

theorem getD_append_left (l r : List Nat) (j d : Nat) (h : j < l.length) :
    (l ++ r).getD j d = l.getD j d := by
  induction l generalizing j with
  | nil => simp at h
  | cons a t ih =>
    cases j with
    | zero => simp [List.getD]
    | succ j2 => simpa [List.getD] using ih j2 (by simpa using h)

theorem getD_append_right (l r : List Nat) (j d : Nat) (h : l.length ≤ j) :
    (l ++ r).getD j d = r.getD (j - l.length) d := by
  induction l generalizing j with
  | nil => simp
  | cons a t ih =>
    cases j with
    | zero => simp at h
    | succ j2 => simpa [List.getD] using ih j2 (by simpa using h)

theorem getD_replicate (n c j d : Nat) (h : j < n) :
    (List.replicate n c).getD j d = c := by
  induction n generalizing j with
  | zero => omega
  | succ n2 ih =>
    cases j with
    | zero => simp [List.getD]
    | succ j2 => simpa [List.replicate, List.getD] using ih j2 (by omega)

theorem drop_eq_replicate (l : List Nat) (n c : Nat)
    (h : ∀ j, n ≤ j → j < l.length → l.getD j 0 = c) :
    l.drop n = List.replicate (l.length - n) c := by
  induction l generalizing n with
  | nil => simp
  | cons a t ih =>
    cases n with
    | zero =>
      have ha : a = c := by
        have := h 0 (by omega) (by simp)
        simpa [List.getD] using this
      have ht := ih 0 (fun j _ hj => by
        simpa [List.getD] using h (j + 1) (by omega) (by simpa using hj))
      simp only [List.drop_zero, Nat.sub_zero] at ht
      have hl : (a :: t).length - 0 = t.length + 1 := by simp
      rw [List.drop_zero, hl, List.replicate_succ, ha]
      exact congrArg (c :: ·) ht
    | succ n2 =>
      have ht := ih n2 (fun j hj hjl => by
        simpa [List.getD] using h (j + 1) (by omega) (by simpa using hjl))
      simpa using ht

theorem drop_cons_split (l : List Nat) (i a : Nat) (r : List Nat) :
    l.drop i = a :: r → i < l.length ∧ l.getD i 0 = a ∧ l.drop (i + 1) = r := by
  induction l generalizing i with
  | nil => intro h; simp at h
  | cons b t ih =>
    intro h
    cases i with
    | zero =>
      simp only [List.drop_zero] at h
      injection h with h1 h2
      subst h1; subst h2
      exact ⟨by simp, rfl, by simp⟩
    | succ i2 =>
      have hr := ih i2 (by simpa using h)
      exact ⟨by simpa using Nat.succ_lt_succ hr.1,
        by simpa [List.getD] using hr.2.1, by simpa using hr.2.2⟩

/-! ## Facts about the frame characterization `encAux` -/

theorem encAux_fst_lb (m : Nat) : ∀ (b : List Nat) (d : Nat), d ≤ 255 →
    d ≤ (encAux m d b).fst := by
  intro b
  induction b with
  | nil => intro d _; simp [encAux]
  | cons v rest ih =>
    intro d hd
    by_cases hd255 : d = 255
    · subst hd255
      by_cases hv : v = m <;> simp [encAux, hv]
    · by_cases hv : v = m
      · simp [encAux, hd255, hv]
      · have hr := ih (d + 1) (by omega)
        simp only [encAux, if_neg hd255, if_neg hv]
        omega

theorem encAux_fst_ub (m : Nat) : ∀ (b : List Nat) (d : Nat), d ≤ 255 →
    (encAux m d b).fst ≤ 255 := by
  intro b
  induction b with
  | nil => intro d hd; simpa [encAux] using hd
  | cons v rest ih =>
    intro d hd
    by_cases hd255 : d = 255
    · subst hd255
      by_cases hv : v = m <;> simp [encAux, hv]
    · by_cases hv : v = m
      · simp only [encAux, if_neg hd255, if_pos hv]
        exact hd
      · have hr := ih (d + 1) (by omega)
        simp only [encAux, if_neg hd255, if_neg hv]
        exact hr

theorem encAux_snd_len_lb (m : Nat) : ∀ (b : List Nat) (d : Nat),
    b.length + 1 ≤ (encAux m d b).snd.length := by
  intro b
  induction b with
  | nil => intro d; simp [encAux]
  | cons v rest ih =>
    intro d
    by_cases hd255 : d = 255
    · subst hd255
      by_cases hv : v = m
      · have hr := ih 1
        simp only [encAux, if_pos rfl, if_pos hv, List.length_cons]
        simpa using by omega
      · have hr := ih 2
        simp only [encAux, if_pos rfl, if_neg hv, List.length_cons]
        simpa using by omega
    · by_cases hv : v = m
      · have hr := ih 1
        simp only [encAux, if_neg hd255, if_pos hv, List.length_cons]
        simpa using by omega
      · have hr := ih (d + 1)
        simp only [encAux, if_neg hd255, if_neg hv, List.length_cons]
        simpa using by omega

theorem encAux_snd_len_ub (m : Nat) : ∀ (b : List Nat) (d : Nat), 1 ≤ d → d ≤ 255 →
    (encAux m d b).snd.length ≤ b.length + 1 + (b.length + d - 1) / 254 := by
  intro b
  induction b with
  | nil => intro d h1 _; simp [encAux]
  | cons v rest ih =>
    intro d h1 h2
    by_cases hd255 : d = 255
    · subst hd255
      by_cases hv : v = m
      · have hr := ih 1 (by omega) (by omega)
        simp only [encAux, if_pos rfl, if_pos hv, if_true, hv, eq_self_iff_true,
          List.length_cons]
        simp only [List.length_cons] at hr ⊢
        omega
      · have hr := ih 2 (by omega) (by omega)
        simp only [encAux, if_pos rfl, if_neg hv, if_true, if_false,
          List.length_cons]
        simp only [List.length_cons] at hr ⊢
        omega
    · by_cases hv : v = m
      · have hr := ih 1 (by omega) (by omega)
        simp only [encAux, if_neg hd255, if_pos hv, List.length_cons]
        omega
      · have hr := ih (d + 1) (by omega) (by omega)
        simp only [encAux, if_neg hd255, if_neg hv, List.length_cons]
        omega

theorem encAux_snd_struct : ∀ (b : List Nat) (d : Nat), 1 ≤ d → d ≤ 255 →
    ∃ body, (encAux 0 d b).snd = body ++ [0] ∧ ∀ x ∈ body, x ≠ 0 := by
  intro b
  induction b with
  | nil => intro d _ _; exact ⟨[], by simp [encAux], by simp⟩
  | cons v rest ih =>
    intro d h1 h2
    by_cases hd255 : d = 255
    · subst hd255
      by_cases hv : v = 0
      · obtain ⟨body, hb, hbn⟩ := ih 1 (by omega) (by omega)
        have hw := encAux_fst_lb 0 rest 1 (by omega)
        refine ⟨1 :: (encAux 0 1 rest).fst :: body, by simp [encAux, hv, hb], ?_⟩
        intro x hx
        simp only [List.mem_cons] at hx
        rcases hx with rfl | rfl | hx
        · omega
        · omega
        · exact hbn x hx
      · obtain ⟨body, hb, hbn⟩ := ih 2 (by omega) (by omega)
        have hw := encAux_fst_lb 0 rest 2 (by omega)
        refine ⟨(encAux 0 2 rest).fst :: v :: body, by simp [encAux, hv, hb], ?_⟩
        intro x hx
        simp only [List.mem_cons] at hx
        rcases hx with rfl | rfl | hx
        · omega
        · exact hv
        · exact hbn x hx
    · by_cases hv : v = 0
      · obtain ⟨body, hb, hbn⟩ := ih 1 (by omega) (by omega)
        have hw := encAux_fst_lb 0 rest 1 (by omega)
        refine ⟨(encAux 0 1 rest).fst :: body, by simp [encAux, hd255, hv, hb], ?_⟩
        intro x hx
        simp only [List.mem_cons] at hx
        rcases hx with rfl | hx
        · omega
        · exact hbn x hx
      · obtain ⟨body, hb, hbn⟩ := ih (d + 1) (by omega) (by omega)
        refine ⟨v :: body, by simp [encAux, hd255, hv, hb], ?_⟩
        intro x hx
        simp only [List.mem_cons] at hx
        rcases hx with rfl | hx
        · exact hv
        · exact hbn x hx

/-! ## Single-step unfolding lemmas for the encoder loop -/

theorem stuffFinish_nil (m total : Nat) (i oh p : Nat) (out : List Nat)
    (h1 : p ≤ total + oh) (h2 : total + oh - p ≤ 255) (hp : p < out.length) :
    stuffFinish m total [] i oh ⟨p, p + 255⟩ out
      = .ok (out.set p (total + oh - p)) := by
  unfold stuffFinish
  simp only [stuffLoop]
  rw [ok_bind]
  rw [if_pos (show (⟨p, p + 255⟩ : MarkerInfo).index ≤ total + oh ∧
    total + oh - (⟨p, p + 255⟩ : MarkerInfo).index ≤ 255 from ⟨h1, h2⟩)]
  exact setB_eq _ _ _ hp

theorem stuffFinish_step_bm (m total v : Nat) (rest : List Nat)
    (i oh p : Nat) (out : List Nat)
    (hpt : p + 255 = oh + i) (hv : v = m) (hp : p < out.length)
    (hoi : oh + i < out.length) :
    stuffFinish m total (v :: rest) i oh ⟨p, p + 255⟩ out
      = stuffFinish m total rest (i + 1) (oh + 1) ⟨oh + 1 + i, oh + 1 + i + 255⟩
          ((out.set p 255).set (oh + i) 1) := by
  unfold stuffFinish
  congr 1
  simp only [stuffLoop]
  rw [if_pos (show (⟨p, p + 255⟩ : MarkerInfo).points_to = oh + i from hpt)]
  rw [adjust_eq _ _ _ (show p ≤ oh + i by omega) (show oh + i - p ≤ 255 by omega)
    (show p < out.length from hp)]
  rw [ok_bind]
  rw [if_pos hv]
  rw [show oh + i - p = 255 from by omega]
  rw [adjust_eq _ _ _ (show oh + i ≤ oh + 1 + i by omega)
    (show oh + 1 + i - (oh + i) ≤ 255 by omega) (by simpa using hoi)]
  rw [ok_bind]
  rw [show oh + 1 + i - (oh + i) = 1 from by omega]

theorem stuffFinish_step_bc (m total v : Nat) (rest : List Nat)
    (i oh p : Nat) (out : List Nat)
    (hpt : p + 255 = oh + i) (hv : ¬ v = m) (hp : p < out.length)
    (hoi : oh + 1 + i < out.length) :
    stuffFinish m total (v :: rest) i oh ⟨p, p + 255⟩ out
      = stuffFinish m total rest (i + 1) (oh + 1) ⟨oh + i, oh + i + 255⟩
          ((out.set p 255).set (oh + 1 + i) v) := by
  unfold stuffFinish
  congr 1
  simp only [stuffLoop]
  rw [if_pos (show (⟨p, p + 255⟩ : MarkerInfo).points_to = oh + i from hpt)]
  rw [adjust_eq _ _ _ (show p ≤ oh + i by omega) (show oh + i - p ≤ 255 by omega)
    (show p < out.length from hp)]
  rw [ok_bind]
  rw [if_neg hv]
  rw [show oh + i - p = 255 from by omega]
  rw [setB_eq _ _ _ (by simpa using hoi)]
  rw [ok_bind]

theorem stuffFinish_step_nm (m total v : Nat) (rest : List Nat)
    (i oh p : Nat) (out : List Nat)
    (hpt : ¬ p + 255 = oh + i) (hv : v = m) (hle : p ≤ oh + i)
    (hd : oh + i - p ≤ 255) (hp : p < out.length) :
    stuffFinish m total (v :: rest) i oh ⟨p, p + 255⟩ out
      = stuffFinish m total rest (i + 1) oh ⟨oh + i, oh + i + 255⟩
          (out.set p (oh + i - p)) := by
  unfold stuffFinish
  congr 1
  simp only [stuffLoop]
  rw [if_neg (show ¬ (⟨p, p + 255⟩ : MarkerInfo).points_to = oh + i from hpt)]
  rw [if_pos hv]
  rw [adjust_eq _ _ _ (show p ≤ oh + i from hle) (show oh + i - p ≤ 255 from hd)
    (show p < out.length from hp)]
  rw [ok_bind]

theorem stuffFinish_step_nc (m total v : Nat) (rest : List Nat)
    (i oh p : Nat) (out : List Nat)
    (hpt : ¬ p + 255 = oh + i) (hv : ¬ v = m) (hoi : oh + i < out.length) :
    stuffFinish m total (v :: rest) i oh ⟨p, p + 255⟩ out
      = stuffFinish m total rest (i + 1) oh ⟨p, p + 255⟩ (out.set (oh + i) v) := by
  unfold stuffFinish
  congr 1
  simp only [stuffLoop]
  rw [if_neg (show ¬ (⟨p, p + 255⟩ : MarkerInfo).points_to = oh + i from hpt)]
  rw [if_neg hv]
  rw [setB_eq _ _ _ hoi]
  rw [ok_bind]

/-- Main encoder characterization: from any reachable loop state (pending
distance byte at `p`, current write position `oh + i = p + d` with
`1 ≤ d ≤ 255`, marker-filled untouched tail) the rest of `stuff` succeeds and
produces exactly the frame described by `encAux`, followed by marker fill. -/
theorem stuffFinish_eq (m : Nat) : ∀ (b : List Nat) (d i oh p : Nat) (out : List Nat),
    oh + i = p + d → 1 ≤ d → d ≤ 255 →
    oh + i + (encAux m d b).snd.length ≤ out.length →
    (∀ j, oh + i ≤ j → j < out.length → out.getD j 0 = m) →
    stuffFinish m (i + b.length) b i oh ⟨p, p + 255⟩ out
      = .ok ((out.set p (encAux m d b).fst).take (oh + i)
          ++ (encAux m d b).snd
          ++ List.replicate (out.length - (oh + i) - (encAux m d b).snd.length) m) := by
  intro b
  induction b with
  | nil =>
    intro d i oh p out heq h1 h255 hsp htr
    simp only [encAux, List.length_nil, List.length_cons, Nat.add_zero] at hsp ⊢
    rw [stuffFinish_nil m i i oh p out (by omega) (by omega) (by omega)]
    rw [show i + oh - p = d from by omega]
    congr 1
    conv_lhs => rw [← List.take_append_drop (oh + i) (out.set p d)]
    rw [drop_set_lt out p (oh + i) d (by omega)]
    rw [drop_eq_replicate out (oh + i) m htr]
    rw [show out.length - (oh + i) = (out.length - (oh + i) - (0 + 1)) + 1 from by omega]
    rw [List.replicate_succ]
    simp [List.append_assoc]
  | cons v rest ih =>
    intro d i oh p out heq h1 h255 hsp htr
    by_cases hd255 : d = 255
    · subst hd255
      by_cases hv : v = m
      · have hEnc : encAux m 255 (v :: rest)
            = (255, 1 :: (encAux m 1 rest).fst :: (encAux m 1 rest).snd) := by
          simp [encAux, hv]
        rw [hEnc] at hsp ⊢
        simp only [List.length_cons] at hsp ⊢
        have hlb := encAux_snd_len_lb m rest 1
        have hpL : p < out.length := by omega
        have hoiL : oh + i < out.length := by omega
        rw [stuffFinish_step_bm m (i + (rest.length + 1)) v rest i oh p out
          (by omega) hv hpL hoiL]
        rw [show i + (rest.length + 1) = (i + 1) + rest.length from by omega]
        have ihc := ih 1 (i + 1) (oh + 1) (oh + 1 + i)
          ((out.set p 255).set (oh + i) 1)
          (by omega) (by omega) (by omega)
          (by simp only [List.length_set]; omega)
          (by
            intro j hj hjl
            simp only [List.length_set] at hjl
            rw [getD_set_ne _ _ _ _ _ (by omega), getD_set_ne _ _ _ _ _ (by omega)]
            exact htr j (by omega) hjl)
        rw [ihc]
        simp only [List.length_set]
        rw [show oh + 1 + (i + 1) = oh + i + 1 + 1 from by omega,
            show oh + 1 + i = oh + i + 1 from by omega]
        rw [take_set_succ _ _ _ (by simp only [List.length_set]; omega)]
        rw [take_set_succ _ _ _ (by simp only [List.length_set]; omega)]
        rw [show out.length - (oh + i + 1 + 1) - (encAux m 1 rest).snd.length
            = out.length - (oh + i) - ((encAux m 1 rest).snd.length + 1 + 1) from by omega]
        simp [List.append_assoc]
      · have hEnc : encAux m 255 (v :: rest)
            = (255, (encAux m 2 rest).fst :: v :: (encAux m 2 rest).snd) := by
          simp [encAux, hv]
        rw [hEnc] at hsp ⊢
        simp only [List.length_cons] at hsp ⊢
        have hlb := encAux_snd_len_lb m rest 2
        have hpL : p < out.length := by omega
        have hoiL : oh + 1 + i < out.length := by omega
        rw [stuffFinish_step_bc m (i + (rest.length + 1)) v rest i oh p out
          (by omega) hv hpL hoiL]
        rw [show i + (rest.length + 1) = (i + 1) + rest.length from by omega]
        have ihc := ih 2 (i + 1) (oh + 1) (oh + i)
          ((out.set p 255).set (oh + 1 + i) v)
          (by omega) (by omega) (by omega)
          (by simp only [List.length_set]; omega)
          (by
            intro j hj hjl
            simp only [List.length_set] at hjl
            rw [getD_set_ne _ _ _ _ _ (by omega), getD_set_ne _ _ _ _ _ (by omega)]
            exact htr j (by omega) hjl)
        rw [ihc]
        simp only [List.length_set]
        rw [show oh + 1 + (i + 1) = oh + i + 1 + 1 from by omega,
            show oh + 1 + i = oh + i + 1 from by omega]
        rw [show ((out.set p 255).set (oh + i + 1) v).set (oh + i) (encAux m 2 rest).fst
            = ((out.set p 255).set (oh + i) (encAux m 2 rest).fst).set (oh + i + 1) v from
          List.set_comm _ _ _ (by omega)]
        rw [take_set_succ _ _ _ (by simp only [List.length_set]; omega)]
        rw [take_set_succ _ _ _ (by simp only [List.length_set]; omega)]
        rw [show out.length - (oh + i + 1 + 1) - (encAux m 2 rest).snd.length
            = out.length - (oh + i) - ((encAux m 2 rest).snd.length + 1 + 1) from by omega]
        simp [List.append_assoc]
    · by_cases hv : v = m
      · have hEnc : encAux m d (v :: rest)
            = (d, (encAux m 1 rest).fst :: (encAux m 1 rest).snd) := by
          simp [encAux, hd255, hv]
        rw [hEnc] at hsp ⊢
        simp only [List.length_cons] at hsp ⊢
        have hlb := encAux_snd_len_lb m rest 1
        have hpL : p < out.length := by omega
        rw [stuffFinish_step_nm m (i + (rest.length + 1)) v rest i oh p out
          (by omega) hv (by omega) (by omega) hpL]
        rw [show oh + i - p = d from by omega]
        rw [show i + (rest.length + 1) = (i + 1) + rest.length from by omega]
        have ihc := ih 1 (i + 1) oh (oh + i) (out.set p d)
          (by omega) (by omega) (by omega)
          (by simp only [List.length_set]; omega)
          (by
            intro j hj hjl
            simp only [List.length_set] at hjl
            rw [getD_set_ne _ _ _ _ _ (by omega)]
            exact htr j (by omega) hjl)
        rw [ihc]
        simp only [List.length_set]
        rw [show oh + (i + 1) = oh + i + 1 from by omega]
        rw [take_set_succ _ _ _ (by simp only [List.length_set]; omega)]
        rw [show out.length - (oh + i + 1) - (encAux m 1 rest).snd.length
            = out.length - (oh + i) - ((encAux m 1 rest).snd.length + 1) from by omega]
        simp [List.append_assoc]
      · have hEnc : encAux m d (v :: rest)
            = ((encAux m (d + 1) rest).fst, v :: (encAux m (d + 1) rest).snd) := by
          simp [encAux, hd255, hv]
        rw [hEnc] at hsp ⊢
        simp only [List.length_cons] at hsp ⊢
        have hlb := encAux_snd_len_lb m rest (d + 1)
        have hoiL : oh + i < out.length := by omega
        rw [stuffFinish_step_nc m (i + (rest.length + 1)) v rest i oh p out
          (by omega) hv hoiL]
        rw [show i + (rest.length + 1) = (i + 1) + rest.length from by omega]
        have ihc := ih (d + 1) (i + 1) oh p (out.set (oh + i) v)
          (by omega) (by omega) (by omega)
          (by simp only [List.length_set]; omega)
          (by
            intro j hj hjl
            simp only [List.length_set] at hjl
            rw [getD_set_ne _ _ _ _ _ (by omega)]
            exact htr j (by omega) hjl)
        rw [ihc]
        simp only [List.length_set]
        rw [show (out.set (oh + i) v).set p (encAux m (d + 1) rest).fst
            = (out.set p (encAux m (d + 1) rest).fst).set (oh + i) v from
          List.set_comm _ _ _ (by omega)]
        rw [show oh + (i + 1) = oh + i + 1 from by omega]
        rw [take_set_succ _ _ _ (by simp only [List.length_set]; omega)]
        rw [show out.length - (oh + i + 1) - (encAux m (d + 1) rest).snd.length
            = out.length - (oh + i) - ((encAux m (d + 1) rest).snd.length + 1) from by omega]
        simp [List.append_assoc]

/-- The shape of a complete `stuff` call: leading distance byte, frame tail as
computed by `encAux`, marker fill. -/
theorem stuff_eq (m : Nat) (b : List Nat) (N : Nat)
    (hN : 1 + (encAux m 1 b).snd.length ≤ N) :
    stuff b m N
      = .ok ((encAux m 1 b).fst :: ((encAux m 1 b).snd
          ++ List.replicate (N - 1 - (encAux m 1 b).snd.length) m)) := by
  unfold stuff
  rw [show (⟨0, 0xff⟩ : MarkerInfo) = ⟨0, 0 + 255⟩ from by norm_num]
  rw [show b.length = 0 + b.length from by omega]
  rw [stuffFinish_eq m b 1 0 1 0 (List.replicate N m) (by omega) (by omega) (by omega)
    (by simp only [List.length_replicate]; omega)
    (fun j _ hjl => getD_replicate N m j 0 (by simpa using hjl))]
  simp only [List.length_replicate]
  rw [show (1 : Nat) + 0 = 0 + 1 from by omega]
  rw [take_set_succ _ _ _ (by simp only [List.length_replicate]; omega)]
  rw [show N - (1 + 0) - (encAux m 1 b).snd.length
      = N - 1 - (encAux m 1 b).snd.length from by omega]
  simp

/-- Under the documented size bound, `stuff` succeeds and the result has the
frame shape; packaged with the bounds on the leading distance byte. -/
theorem stuff_ok (m : Nat) (b : List Nat) (N : Nat)
    (hN : b.length + 2 + b.length / 254 ≤ N) :
    stuff b m N
      = .ok ((encAux m 1 b).fst :: ((encAux m 1 b).snd
          ++ List.replicate (N - 1 - (encAux m 1 b).snd.length) m)) := by
  have hub := encAux_snd_len_ub m b 1 (by omega) (by omega)
  exact stuff_eq m b N (by omega)

/-! ## Single-step unfolding lemmas for the decoder loop -/

theorem unstuffLoop_step_brk (F : List Nat) (m fuel i u oh : Nat) (nio : Bool)
    (out : List Nat) (hi : i < F.length) (hval : F.getD i 0 = m) :
    unstuffLoop F m (fuel + 1) i u nio oh out = .ok (out, i, oh) := by
  simp only [unstuffLoop]
  rw [getB_eq F i hi, ok_bind, hval]
  rw [if_pos rfl]

theorem unstuffLoop_step_ovh (F : List Nat) (m fuel i oh val : Nat)
    (out : List Nat) (hi : i < F.length) (hval : F.getD i 0 = val)
    (hv : ¬ val = m) :
    unstuffLoop F m (fuel + 1) i 0 true oh out
      = unstuffLoop F m fuel (i + 1) (u8wrapDec val) (val == 0xff) (oh + 1) out := by
  simp only [unstuffLoop]
  rw [getB_eq F i hi, ok_bind, hval]
  rw [if_neg hv]
  simp [ok_bind, hi]

theorem unstuffLoop_step_mrk (F : List Nat) (m fuel i oh val : Nat)
    (out : List Nat) (hi : i < F.length) (hval : F.getD i 0 = val)
    (hv : ¬ val = m) (hw : i - oh < out.length) :
    unstuffLoop F m (fuel + 1) i 0 false oh out
      = unstuffLoop F m fuel (i + 1) (u8wrapDec val) (val == 0xff) oh
          (out.set (i - oh) m) := by
  simp only [unstuffLoop]
  rw [getB_eq F i hi, ok_bind, hval]
  rw [if_neg hv]
  simp [ok_bind, setB_eq _ _ _ hw, hi]

theorem unstuffLoop_step_pay (F : List Nat) (m fuel i u oh val : Nat) (nio : Bool)
    (out : List Nat) (hi : i < F.length) (hval : F.getD i 0 = val)
    (hv : ¬ val = m) (hu : ¬ u = 0) (hw : i - oh < out.length) :
    unstuffLoop F m (fuel + 1) i u nio oh out
      = unstuffLoop F m fuel (i + 1) (u8wrapDec u) nio oh
          (out.set (i - oh) val) := by
  simp only [unstuffLoop]
  rw [getB_eq F i hi, ok_bind, hval]
  rw [if_neg hv, if_neg hu]
  simp [ok_bind, setB_eq _ _ _ hw, hi]

theorem beq_false_of_ne (a b : Nat) (h : ¬ a = b) : (a == b) = false :=
  beq_eq_false_iff_ne.mpr h

/-- Main decoder correspondence: reading a frame tail produced by `encAux`
from any coupled decoder state recovers exactly the remaining input bytes,
stops at the terminator, and counts the overhead bytes it consumed. -/
theorem unstuffLoop_eq : ∀ (b : List Nat) (d i oh fuel : Nat) (F t out : List Nat),
    1 ≤ d → d ≤ 255 → oh ≤ i →
    F.drop i = (encAux 0 d b).snd ++ t →
    (encAux 0 d b).snd.length ≤ fuel →
    i - oh + b.length ≤ out.length →
    unstuffLoop F 0 fuel i ((encAux 0 d b).fst - d) ((encAux 0 d b).fst == 255) oh out
      = .ok (out.take (i - oh) ++ b ++ out.drop (i - oh + b.length),
             i + (encAux 0 d b).snd.length - 1,
             oh + ((encAux 0 d b).snd.length - b.length - 1)) := by
  intro b
  induction b with
  | nil =>
    intro d i oh fuel F t out h1 h255 hohi hdrop hfuel hsp
    have hfst : (encAux 0 d []).fst = d := rfl
    have hsnd : (encAux 0 d []).snd = [0] := rfl
    rw [hsnd] at hdrop hfuel
    rw [hfst, hsnd]
    simp only [List.cons_append, List.nil_append] at hdrop
    obtain ⟨hiF, hFi, -⟩ := drop_cons_split F i 0 t hdrop
    cases fuel with
    | zero => simp at hfuel
    | succ f =>
      rw [show d - d = 0 from by omega]
      rw [unstuffLoop_step_brk F 0 f i 0 oh (d == 255) out hiF hFi]
      simp only [Except.ok.injEq, Prod.mk.injEq, List.length_cons, List.length_nil]
      refine ⟨?_, by omega, by omega⟩
      rw [show i - oh + 0 = i - oh from by omega]
      simp [List.take_append_drop]
  | cons v rest ih =>
    intro d i oh fuel F t out h1 h255 hohi hdrop hfuel hsp
    simp only [List.length_cons] at hsp
    by_cases hd255 : d = 255
    · subst hd255
      by_cases hv : v = 0
      · subst hv
        have hEnc : encAux 0 255 (0 :: rest)
            = (255, 1 :: (encAux 0 1 rest).fst :: (encAux 0 1 rest).snd) := by
          simp [encAux]
        have hfst : (encAux 0 255 (0 :: rest)).fst = 255 := by rw [hEnc]
        have hsnd : (encAux 0 255 (0 :: rest)).snd
            = 1 :: (encAux 0 1 rest).fst :: (encAux 0 1 rest).snd := by rw [hEnc]
        rw [hsnd] at hdrop hfuel
        rw [hfst, hsnd]
        simp only [List.cons_append] at hdrop
        obtain ⟨hiF, hF1, hd1⟩ := drop_cons_split F i 1 _ hdrop
        obtain ⟨hiF2, hF2, hd2⟩ := drop_cons_split F (i + 1) _ _ hd1
        simp only [List.length_cons] at hfuel
        have hlb := encAux_snd_len_lb 0 rest 1
        have hw1 : 1 ≤ (encAux 0 1 rest).fst := encAux_fst_lb 0 rest 1 (by omega)
        have hw255 : (encAux 0 1 rest).fst ≤ 255 := encAux_fst_ub 0 rest 1 (by omega)
        cases fuel with
        | zero => omega
        | succ f =>
          cases f with
          | zero => omega
          | succ f2 =>
            rw [show (255 : Nat) - 255 = 0 from rfl,
              show ((255 : Nat) == 255) = true from rfl]
            rw [unstuffLoop_step_ovh F 0 (f2 + 1) i oh 1 out hiF hF1 (by omega)]
            rw [show u8wrapDec 1 = 0 from by decide,
              show ((1 : Nat) == 255) = false from by decide]
            rw [unstuffLoop_step_mrk F 0 f2 (i + 1) (oh + 1) (encAux 0 1 rest).fst out
              hiF2 hF2 (by omega) (by omega)]
            rw [show i + 1 - (oh + 1) = i - oh from by omega]
            rw [u8wrapDec_eq _ hw1 hw255]
            rw [ih 1 (i + 1 + 1) (oh + 1) f2 F t (out.set (i - oh) 0)
              (by omega) (by omega) (by omega) hd2 (by omega)
              (by simp only [List.length_set]; omega)]
            simp only [Except.ok.injEq, Prod.mk.injEq, List.length_cons,
              List.length_set]
            refine ⟨?_, by omega, by omega⟩
            rw [show i + 1 + 1 - (oh + 1) = i - oh + 1 from by omega]
            rw [take_set_succ _ _ _ (by omega)]
            rw [drop_set_lt _ _ _ _ (by omega)]
            rw [show i - oh + 1 + rest.length = i - oh + (rest.length + 1) from by
              omega]
            simp [List.append_assoc]
      · have hEnc : encAux 0 255 (v :: rest)
            = (255, (encAux 0 2 rest).fst :: v :: (encAux 0 2 rest).snd) := by
          simp [encAux, hv]
        have hfst : (encAux 0 255 (v :: rest)).fst = 255 := by rw [hEnc]
        have hsnd : (encAux 0 255 (v :: rest)).snd
            = (encAux 0 2 rest).fst :: v :: (encAux 0 2 rest).snd := by rw [hEnc]
        rw [hsnd] at hdrop hfuel
        rw [hfst, hsnd]
        simp only [List.cons_append] at hdrop
        obtain ⟨hiF, hF1, hd1⟩ := drop_cons_split F i _ _ hdrop
        obtain ⟨hiF2, hF2, hd2⟩ := drop_cons_split F (i + 1) _ _ hd1
        simp only [List.length_cons] at hfuel
        have hlb := encAux_snd_len_lb 0 rest 2
        have hw1 : 2 ≤ (encAux 0 2 rest).fst := encAux_fst_lb 0 rest 2 (by omega)
        have hw255 : (encAux 0 2 rest).fst ≤ 255 := encAux_fst_ub 0 rest 2 (by omega)
        cases fuel with
        | zero => omega
        | succ f =>
          cases f with
          | zero => omega
          | succ f2 =>
            rw [show (255 : Nat) - 255 = 0 from rfl,
              show ((255 : Nat) == 255) = true from rfl]
            rw [unstuffLoop_step_ovh F 0 (f2 + 1) i oh (encAux 0 2 rest).fst out
              hiF hF1 (by omega)]
            rw [u8wrapDec_eq _ (by omega) hw255]
            rw [unstuffLoop_step_pay F 0 f2 (i + 1) ((encAux 0 2 rest).fst - 1)
              (oh + 1) v ((encAux 0 2 rest).fst == 255) out hiF2 hF2 hv (by omega)
              (by omega)]
            rw [show i + 1 - (oh + 1) = i - oh from by omega]
            rw [u8wrapDec_eq _ (by omega) (by omega)]
            rw [show (encAux 0 2 rest).fst - 1 - 1 = (encAux 0 2 rest).fst - 2 from by
              omega]
            rw [ih 2 (i + 1 + 1) (oh + 1) f2 F t (out.set (i - oh) v)
              (by omega) (by omega) (by omega) hd2 (by omega)
              (by simp only [List.length_set]; omega)]
            simp only [Except.ok.injEq, Prod.mk.injEq, List.length_cons,
              List.length_set]
            refine ⟨?_, by omega, by omega⟩
            rw [show i + 1 + 1 - (oh + 1) = i - oh + 1 from by omega]
            rw [take_set_succ _ _ _ (by omega)]
            rw [drop_set_lt _ _ _ _ (by omega)]
            rw [show i - oh + 1 + rest.length = i - oh + (rest.length + 1) from by
              omega]
            simp [List.append_assoc]
    · by_cases hv : v = 0
      · subst hv
        have hEnc : encAux 0 d (0 :: rest)
            = (d, (encAux 0 1 rest).fst :: (encAux 0 1 rest).snd) := by
          simp [encAux, hd255]
        have hfst : (encAux 0 d (0 :: rest)).fst = d := by rw [hEnc]
        have hsnd : (encAux 0 d (0 :: rest)).snd
            = (encAux 0 1 rest).fst :: (encAux 0 1 rest).snd := by rw [hEnc]
        rw [hsnd] at hdrop hfuel
        rw [hfst, hsnd]
        simp only [List.cons_append] at hdrop
        obtain ⟨hiF, hF1, hd1⟩ := drop_cons_split F i _ _ hdrop
        simp only [List.length_cons] at hfuel
        have hlb := encAux_snd_len_lb 0 rest 1
        have hw1 : 1 ≤ (encAux 0 1 rest).fst := encAux_fst_lb 0 rest 1 (by omega)
        have hw255 : (encAux 0 1 rest).fst ≤ 255 := encAux_fst_ub 0 rest 1 (by omega)
        cases fuel with
        | zero => omega
        | succ f =>
          rw [show d - d = 0 from by omega, beq_false_of_ne d 255 hd255]
          rw [unstuffLoop_step_mrk F 0 f i oh (encAux 0 1 rest).fst out
            hiF hF1 (by omega) (by omega)]
          rw [u8wrapDec_eq _ hw1 hw255]
          rw [ih 1 (i + 1) oh f F t (out.set (i - oh) 0)
            (by omega) (by omega) (by omega) hd1 (by omega)
            (by simp only [List.length_set]; omega)]
          simp only [Except.ok.injEq, Prod.mk.injEq, List.length_cons,
            List.length_set]
          refine ⟨?_, by omega, by omega⟩
          rw [show i + 1 - oh = i - oh + 1 from by omega]
          rw [take_set_succ _ _ _ (by omega)]
          rw [drop_set_lt _ _ _ _ (by omega)]
          rw [show i - oh + 1 + rest.length = i - oh + (rest.length + 1) from by
            omega]
          simp [List.append_assoc]
      · have hEnc : encAux 0 d (v :: rest)
            = ((encAux 0 (d + 1) rest).fst, v :: (encAux 0 (d + 1) rest).snd) := by
          simp [encAux, hd255, hv]
        have hfst : (encAux 0 d (v :: rest)).fst = (encAux 0 (d + 1) rest).fst := by
          rw [hEnc]
        have hsnd : (encAux 0 d (v :: rest)).snd
            = v :: (encAux 0 (d + 1) rest).snd := by rw [hEnc]
        rw [hsnd] at hdrop hfuel
        rw [hfst, hsnd]
        simp only [List.cons_append] at hdrop
        obtain ⟨hiF, hF1, hd1⟩ := drop_cons_split F i _ _ hdrop
        simp only [List.length_cons] at hfuel
        have hlb := encAux_snd_len_lb 0 rest (d + 1)
        have hw1 : d + 1 ≤ (encAux 0 (d + 1) rest).fst :=
          encAux_fst_lb 0 rest (d + 1) (by omega)
        have hw255 : (encAux 0 (d + 1) rest).fst ≤ 255 :=
          encAux_fst_ub 0 rest (d + 1) (by omega)
        cases fuel with
        | zero => omega
        | succ f =>
          rw [unstuffLoop_step_pay F 0 f i ((encAux 0 (d + 1) rest).fst - d)
            oh v ((encAux 0 (d + 1) rest).fst == 255) out hiF hF1 hv (by omega)
            (by omega)]
          rw [u8wrapDec_eq _ (by omega) (by omega)]
          rw [show (encAux 0 (d + 1) rest).fst - d - 1
              = (encAux 0 (d + 1) rest).fst - (d + 1) from by omega]
          rw [ih (d + 1) (i + 1) oh f F t (out.set (i - oh) v)
            (by omega) (by omega) (by omega) hd1 (by omega)
            (by simp only [List.length_set]; omega)]
          simp only [Except.ok.injEq, Prod.mk.injEq, List.length_cons,
            List.length_set]
          refine ⟨?_, by omega, by omega⟩
          rw [show i + 1 - oh = i - oh + 1 from by omega]
          rw [take_set_succ _ _ _ (by omega)]
          rw [drop_set_lt _ _ _ _ (by omega)]
          rw [show i - oh + 1 + rest.length = i - oh + (rest.length + 1) from by
            omega]
          simp [List.append_assoc]

theorem getD_mem_of_lt (l : List Nat) (j : Nat) (h : j < l.length) :
    l.getD j 0 ∈ l := by
  induction l generalizing j with
  | nil => simp at h
  | cons a t ih =>
    cases j with
    | zero => simp [List.getD]
    | succ j2 =>
      have := ih j2 (by simpa using h)
      simp [List.getD]
      right
      simpa [List.getD] using this

/-- Full decode of a frame produced by `stuff` with marker 0: the decoder
recovers the input followed by zero fill, reports the terminator position
`(encAux 0 1 b).snd.length`, and has consumed all inserted overhead bytes. -/
theorem unstuff_of_stuff (b : List Nat) (N P : Nat)
    (hN : b.length + 2 + b.length / 254 ≤ N) (hP : b.length ≤ P) :
    ∃ e, stuff b 0 N = .ok e ∧ e.length = N ∧
      e.getD 0 0 = (encAux 0 1 b).fst ∧
      unstuffLoop e 0 e.length 1 (u8wrapDec (e.getD 0 0)) (e.getD 0 0 == 255) 1
          (List.replicate P 0)
        = .ok (b ++ List.replicate (P - b.length) 0,
               (encAux 0 1 b).snd.length,
               1 + ((encAux 0 1 b).snd.length - b.length - 1)) ∧
      unstuff e 0 P
        = .ok (b ++ List.replicate (P - b.length) 0,
               (encAux 0 1 b).snd.length + 1) := by
  have hub := encAux_snd_len_ub 0 b 1 (by omega) (by omega)
  have hlb := encAux_snd_len_lb 0 b 1
  have hw1 : 1 ≤ (encAux 0 1 b).fst := encAux_fst_lb 0 b 1 (by omega)
  have hw255 : (encAux 0 1 b).fst ≤ 255 := encAux_fst_ub 0 b 1 (by omega)
  refine ⟨(encAux 0 1 b).fst :: ((encAux 0 1 b).snd
    ++ List.replicate (N - 1 - (encAux 0 1 b).snd.length) 0), stuff_ok 0 b N hN,
    ?_, ?_, ?_, ?_⟩
  · simp only [List.length_cons, List.length_append, List.length_replicate]
    omega
  · simp [List.getD]
  · have hgd : ((encAux 0 1 b).fst :: ((encAux 0 1 b).snd
        ++ List.replicate (N - 1 - (encAux 0 1 b).snd.length) 0)).getD 0 0
        = (encAux 0 1 b).fst := by simp [List.getD]
    rw [hgd]
    have hloop := unstuffLoop_eq b 1 1 1
      ((encAux 0 1 b).fst :: ((encAux 0 1 b).snd
        ++ List.replicate (N - 1 - (encAux 0 1 b).snd.length) 0)).length
      ((encAux 0 1 b).fst :: ((encAux 0 1 b).snd
        ++ List.replicate (N - 1 - (encAux 0 1 b).snd.length) 0))
      (List.replicate (N - 1 - (encAux 0 1 b).snd.length) 0)
      (List.replicate P 0)
      (by omega) (by omega) (by omega)
      (by simp)
      (by simp only [List.length_cons, List.length_append, List.length_replicate]
          omega)
      (by simp only [List.length_replicate]; omega)
    rw [u8wrapDec_eq _ hw1 hw255]
    rw [hloop]
    simp only [Except.ok.injEq, Prod.mk.injEq]
    refine ⟨?_, by omega, trivial⟩
    rw [show (1 : Nat) - 1 = 0 from rfl, List.take_zero, List.nil_append]
    rw [show (0 : Nat) + b.length = b.length from by omega]
    rw [drop_eq_replicate (List.replicate P 0) b.length 0
      (fun j _ hj => getD_replicate P 0 j 0 (by simpa using hj))]
    simp
  · unfold unstuff
    rw [getB_eq _ 0 (by simp), ok_bind]
    have hgd : ((encAux 0 1 b).fst :: ((encAux 0 1 b).snd
        ++ List.replicate (N - 1 - (encAux 0 1 b).snd.length) 0)).getD 0 0
        = (encAux 0 1 b).fst := by simp [List.getD]
    rw [hgd]
    have hloop := unstuffLoop_eq b 1 1 1
      ((encAux 0 1 b).fst :: ((encAux 0 1 b).snd
        ++ List.replicate (N - 1 - (encAux 0 1 b).snd.length) 0)).length
      ((encAux 0 1 b).fst :: ((encAux 0 1 b).snd
        ++ List.replicate (N - 1 - (encAux 0 1 b).snd.length) 0))
      (List.replicate (N - 1 - (encAux 0 1 b).snd.length) 0)
      (List.replicate P 0)
      (by omega) (by omega) (by omega)
      (by simp)
      (by simp only [List.length_cons, List.length_append, List.length_replicate]
          omega)
      (by simp only [List.length_replicate]; omega)
    rw [u8wrapDec_eq _ hw1 hw255]
    rw [hloop, ok_bind]
    simp only [Except.ok.injEq, Prod.mk.injEq]
    refine ⟨?_, by omega⟩
    rw [show (1 : Nat) - 1 = 0 from rfl, List.take_zero, List.nil_append]
    rw [show (0 : Nat) + b.length = b.length from by omega]
    rw [drop_eq_replicate (List.replicate P 0) b.length 0
      (fun j _ hj => getD_replicate P 0 j 0 (by simpa using hj))]
    simp

theorem error_bind {α β : Type} (e : Err) (f : α → Except Err β) :
    (Except.error e >>= f : Except Err β) = .error e := rfl

theorem getB_err (l : List Nat) (i : Nat) (h : ¬ i < l.length) :
    getB l i = .error .oob := by
  simp [getB, h]

theorem setB_err (l : List Nat) (i v : Nat) (h : ¬ i < l.length) :
    setB l i v = .error .oob := by
  simp [setB, h]

/-- The dedicated `panic!("No marker value found!")` branch of the decode
loop is dead code: reaching it would require the loop to have just read
`buff[i]` successfully with `i ≥ buff.length`. -/
theorem unstuffLoop_no_noMarker : ∀ (fuel : Nat) (buff : List Nat)
    (m i u oh : Nat) (nio : Bool) (out : List Nat),
    unstuffLoop buff m fuel i u nio oh out ≠ .error .noMarker := by
  intro fuel
  induction fuel with
  | zero =>
    intro buff m i u oh nio out h
    simp [unstuffLoop] at h
  | succ f ihf =>
    intro buff m i u oh nio out h
    simp only [unstuffLoop] at h
    by_cases hi : i < buff.length
    · rw [getB_eq buff i hi, ok_bind] at h
      by_cases hv : buff.getD i 0 = m
      · rw [if_pos hv] at h
        simp at h
      · rw [if_neg hv] at h
        by_cases hu : u = 0
        · rw [if_pos hu] at h
          cases nio with
          | true =>
            rw [if_pos rfl, ok_bind, if_pos hi] at h
            exact ihf _ _ _ _ _ _ _ h
          | false =>
            rw [if_neg (show ¬ (false = true) from by simp)] at h
            by_cases hb : i - oh < out.length
            · rw [setB_eq _ _ _ hb, ok_bind, ok_bind, if_pos hi] at h
              exact ihf _ _ _ _ _ _ _ h
            · rw [setB_err _ _ _ hb, error_bind] at h
              simp at h
        · rw [if_neg hu] at h
          by_cases hb : i - oh < out.length
          · rw [setB_eq _ _ _ hb, ok_bind, if_pos hi] at h
            exact ihf _ _ _ _ _ _ _ h
          · rw [setB_err _ _ _ hb, error_bind] at h
            simp at h
    · rw [getB_err buff i hi, error_bind] at h
      simp at h

/-- On success, the decode loop's break index is the first input index at or
after the start index holding the marker. -/
theorem unstuffLoop_break_first (m : Nat) : ∀ (fuel : Nat) (buff : List Nat)
    (i u oh : Nat) (nio : Bool) (out ob : List Nat) (k oh2 : Nat),
    unstuffLoop buff m fuel i u nio oh out = .ok (ob, k, oh2) →
    i ≤ k ∧ k < buff.length ∧ buff.getD k 0 = m ∧
      ∀ j, i ≤ j → j < k → buff.getD j 0 ≠ m := by
  intro fuel
  induction fuel with
  | zero =>
    intro buff i u oh nio out ob k oh2 h
    simp [unstuffLoop] at h
  | succ f ihf =>
    intro buff i u oh nio out ob k oh2 h
    simp only [unstuffLoop] at h
    by_cases hi : i < buff.length
    · rw [getB_eq buff i hi, ok_bind] at h
      by_cases hv : buff.getD i 0 = m
      · rw [if_pos hv] at h
        simp only [Except.ok.injEq, Prod.mk.injEq] at h
        obtain ⟨-, hk, -⟩ := h
        subst hk
        exact ⟨Nat.le_refl i, hi, hv, fun j h1 h2 => by omega⟩
      · rw [if_neg hv] at h
        have hnext : ∀ u2 nio2 oh3 out2,
            unstuffLoop buff m f (i + 1) u2 nio2 oh3 out2 = .ok (ob, k, oh2) →
            i ≤ k ∧ k < buff.length ∧ buff.getD k 0 = m ∧
              ∀ j, i ≤ j → j < k → buff.getD j 0 ≠ m := by
          intro u2 nio2 oh3 out2 hrec
          obtain ⟨hik, hkl, hkm, hfirst⟩ := ihf buff (i + 1) u2 oh3 nio2 out2 ob k oh2 hrec
          refine ⟨by omega, hkl, hkm, ?_⟩
          intro j h1 h2
          by_cases hji : j = i
          · subst hji; exact hv
          · exact hfirst j (by omega) h2
        by_cases hu : u = 0
        · rw [if_pos hu] at h
          cases nio with
          | true =>
            rw [if_pos rfl, ok_bind, if_pos hi] at h
            exact hnext _ _ _ _ h
          | false =>
            rw [if_neg (show ¬ (false = true) from by simp)] at h
            by_cases hb : i - oh < out.length
            · rw [setB_eq _ _ _ hb, ok_bind, ok_bind, if_pos hi] at h
              exact hnext _ _ _ _ h
            · rw [setB_err _ _ _ hb, error_bind] at h
              simp at h
        · rw [if_neg hu] at h
          by_cases hb : i - oh < out.length
          · rw [setB_eq _ _ _ hb, ok_bind, if_pos hi] at h
            exact hnext _ _ _ _ h
          · rw [setB_err _ _ _ hb, error_bind] at h
            simp at h
    · rw [getB_err buff i hi, error_bind] at h
      simp at h

theorem unstuffLoop_step_mrk_err (F : List Nat) (m fuel i oh val : Nat)
    (out : List Nat) (hi : i < F.length) (hval : F.getD i 0 = val)
    (hv : ¬ val = m) (hw : ¬ i - oh < out.length) :
    unstuffLoop F m (fuel + 1) i 0 false oh out = .error .oob := by
  simp only [unstuffLoop]
  rw [getB_eq F i hi, ok_bind, hval]
  rw [if_neg hv]
  simp [setB_err _ _ _ hw, error_bind]

theorem unstuffLoop_step_pay_err (F : List Nat) (m fuel i u oh val : Nat)
    (nio : Bool) (out : List Nat) (hi : i < F.length) (hval : F.getD i 0 = val)
    (hv : ¬ val = m) (hu : ¬ u = 0) (hw : ¬ i - oh < out.length) :
    unstuffLoop F m (fuel + 1) i u nio oh out = .error .oob := by
  simp only [unstuffLoop]
  rw [getB_eq F i hi, ok_bind, hval]
  rw [if_neg hv, if_neg hu]
  simp [setB_err _ _ _ hw, error_bind]

/-- The decode loop reads only the bytes up to and including the first marker
occurrence at or after its start index: two inputs agreeing there are decoded
identically, whatever comes later and whatever their total size. -/
theorem unstuffLoop_congr (m : Nat) (b1 b2 : List Nat) (k : Nat)
    (hk1 : k < b1.length) (hk2 : k < b2.length)
    (hagree : ∀ j, j ≤ k → b1.getD j 0 = b2.getD j 0)
    (hmk : b1.getD k 0 = m) :
    ∀ (fuel1 : Nat) (i u fuel2 oh : Nat) (nio : Bool) (out : List Nat),
    i ≤ k → k - i < fuel1 → k - i < fuel2 →
    unstuffLoop b1 m fuel1 i u nio oh out = unstuffLoop b2 m fuel2 i u nio oh out := by
  intro fuel1
  induction fuel1 with
  | zero =>
    intro i u fuel2 oh nio out hik hf1 hf2
    omega
  | succ f1 ihf =>
    intro i u fuel2 oh nio out hik hf1 hf2
    cases fuel2 with
    | zero => omega
    | succ f2 =>
      have hi1 : i < b1.length := by omega
      have hi2 : i < b2.length := by omega
      have hval : b2.getD i 0 = b1.getD i 0 := (hagree i hik).symm
      by_cases hv : b1.getD i 0 = m
      · rw [unstuffLoop_step_brk b1 m f1 i u oh nio out hi1 hv,
          unstuffLoop_step_brk b2 m f2 i u oh nio out hi2 (hval.trans hv)]
      · have hilt : i < k := by
          by_contra hge
          have hik2 : b1.getD i 0 = m := by
            rw [show i = k from by omega]
            exact hmk
          exact hv hik2
        by_cases hu : u = 0
        · subst hu
          cases nio with
          | true =>
            rw [unstuffLoop_step_ovh b1 m f1 i oh (b1.getD i 0) out hi1 rfl hv,
              unstuffLoop_step_ovh b2 m f2 i oh (b1.getD i 0) out hi2 hval hv]
            exact ihf (i + 1) _ f2 _ _ _ (by omega) (by omega) (by omega)
          | false =>
            by_cases hb : i - oh < out.length
            · rw [unstuffLoop_step_mrk b1 m f1 i oh (b1.getD i 0) out hi1 rfl hv hb,
                unstuffLoop_step_mrk b2 m f2 i oh (b1.getD i 0) out hi2 hval hv hb]
              exact ihf (i + 1) _ f2 _ _ _ (by omega) (by omega) (by omega)
            · rw [unstuffLoop_step_mrk_err b1 m f1 i oh (b1.getD i 0) out hi1 rfl hv hb,
                unstuffLoop_step_mrk_err b2 m f2 i oh (b1.getD i 0) out hi2 hval hv hb]
        · by_cases hb : i - oh < out.length
          · rw [unstuffLoop_step_pay b1 m f1 i u oh (b1.getD i 0) nio out hi1 rfl hv hu hb,
              unstuffLoop_step_pay b2 m f2 i u oh (b1.getD i 0) nio out hi2 hval hv hu hb]
            exact ihf (i + 1) _ f2 _ _ _ (by omega) (by omega) (by omega)
          · rw [unstuffLoop_step_pay_err b1 m f1 i u oh (b1.getD i 0) nio out hi1 rfl hv hu hb,
              unstuffLoop_step_pay_err b2 m f2 i u oh (b1.getD i 0) nio out hi2 hval hv hu hb]

theorem getD_cons_zero (a : Nat) (l : List Nat) (d : Nat) :
    (a :: l).getD 0 d = a := rfl

theorem getD_cons_succ (a : Nat) (l : List Nat) (j d : Nat) :
    (a :: l).getD (j + 1) d = l.getD j d := rfl

theorem adjust_ok_shape (lm : MarkerInfo) (out : List Nat) (ni : Nat)
    (lm2 : MarkerInfo) (ob : List Nat) :
    adjust_accordingly lm out ni = .ok (lm2, ob) →
    lm2 = ⟨ni, ni + 255⟩ := by
  intro h
  unfold adjust_accordingly at h
  split at h
  · by_cases hb : lm.index < out.length
    · rw [setB_eq _ _ _ hb, ok_bind] at h
      simp only [Except.ok.injEq, Prod.mk.injEq] at h
      exact h.1.symm
    · rw [setB_err _ _ _ hb, error_bind] at h
      simp at h
  · simp at h

/-- Every tracker state produced during a successful run of the encoder loop
satisfies `points_to = index + 255`; in particular so does the final one. -/
theorem stuffLoop_points_invariant (m : Nat) : ∀ (b : List Nat) (i oh : Nat)
    (lm : MarkerInfo) (out : List Nat) (res : List Nat × MarkerInfo × Nat),
    lm.points_to = lm.index + 255 →
    stuffLoop m b i oh lm out = .ok res →
    res.2.1.points_to = res.2.1.index + 255 := by
  intro b
  induction b with
  | nil =>
    intro i oh lm out res hinv h
    simp only [stuffLoop, Except.ok.injEq] at h
    rw [← h]
    exact hinv
  | cons v rest ih =>
    intro i oh lm out res hinv h
    simp only [stuffLoop] at h
    split at h
    · cases hadj : adjust_accordingly lm out (oh + i) with
      | error e => rw [hadj, error_bind] at h; simp at h
      | ok x =>
        obtain ⟨lm1, ob1⟩ := x
        have hsh := adjust_ok_shape lm out (oh + i) lm1 ob1 hadj
        rw [hadj, ok_bind] at h
        split at h
        · cases hadj2 : adjust_accordingly lm1 ob1 (oh + 1 + i) with
          | error e => rw [hadj2, error_bind] at h; simp at h
          | ok x2 =>
            obtain ⟨lm2, ob2⟩ := x2
            have hsh2 := adjust_ok_shape lm1 ob1 (oh + 1 + i) lm2 ob2 hadj2
            rw [hadj2, ok_bind] at h
            exact ih (i + 1) (oh + 1) lm2 ob2 res (by rw [hsh2]) h
        · cases hsb : setB ob1 (oh + 1 + i) v with
          | error e => rw [hsb, error_bind] at h; simp at h
          | ok ob2 =>
            rw [hsb, ok_bind] at h
            exact ih (i + 1) (oh + 1) lm1 ob2 res (by rw [hsh]) h
    · split at h
      · cases hadj : adjust_accordingly lm out (oh + i) with
        | error e => rw [hadj, error_bind] at h; simp at h
        | ok x =>
          obtain ⟨lm1, ob1⟩ := x
          have hsh := adjust_ok_shape lm out (oh + i) lm1 ob1 hadj
          rw [hadj, ok_bind] at h
          exact ih (i + 1) oh lm1 ob1 res (by rw [hsh]) h
      · cases hsb : setB out (oh + i) v with
        | error e => rw [hsb, error_bind] at h; simp at h
        | ok ob1 =>
          rw [hsb, ok_bind] at h
          exact ih (i + 1) oh lm ob1 res hinv h

/-- Byte-level classification of a complete zero-marker frame: every byte
strictly before position `(encAux 0 1 b).snd.length` (the terminator) is
nonzero, and every byte from the terminator to the end of the buffer is
zero. -/
theorem stuff_frame_bytes (b : List Nat) (N : Nat)
    (hN : b.length + 2 + b.length / 254 ≤ N) :
    ∃ e, stuff b 0 N = .ok e ∧ e.length = N ∧
      (∀ j, j < (encAux 0 1 b).snd.length → e.getD j 0 ≠ 0) ∧
      (∀ j, (encAux 0 1 b).snd.length ≤ j → j < N → e.getD j 0 = 0) ∧
      (encAux 0 1 b).snd.length < N ∧
      b.length + 2 ≤ (encAux 0 1 b).snd.length + 1 ∧
      (encAux 0 1 b).snd.length + 1 ≤ b.length + 2 + b.length / 254 := by
  have hub := encAux_snd_len_ub 0 b 1 (by omega) (by omega)
  have hlb := encAux_snd_len_lb 0 b 1
  have hw1 : 1 ≤ (encAux 0 1 b).fst := encAux_fst_lb 0 b 1 (by omega)
  obtain ⟨body, hbody, hbodyne⟩ := encAux_snd_struct b 1 (by omega) (by omega)
  have hblen : (encAux 0 1 b).snd.length = body.length + 1 := by
    rw [hbody]; simp
  refine ⟨(encAux 0 1 b).fst :: ((encAux 0 1 b).snd
    ++ List.replicate (N - 1 - (encAux 0 1 b).snd.length) 0), stuff_ok 0 b N hN,
    ?_, ?_, ?_, by omega, by omega, by omega⟩
  · simp only [List.length_cons, List.length_append, List.length_replicate]
    omega
  · intro j hj
    cases j with
    | zero =>
      rw [getD_cons_zero]
      omega
    | succ j2 =>
      have hj2 : j2 < body.length := by omega
      rw [getD_cons_succ, hbody, List.append_assoc]
      rw [getD_append_left _ _ _ _ hj2]
      exact hbodyne _ (getD_mem_of_lt body j2 hj2)
  · intro j hj1 hj2
    cases j with
    | zero => omega
    | succ j2 =>
      rw [getD_cons_succ, hbody, List.append_assoc]
      rw [getD_append_right _ _ _ _ (by omega)]
      rw [List.singleton_append]
      cases hsub : j2 - body.length with
      | zero =>
        rw [getD_cons_zero]
      | succ j3 =>
        rw [getD_cons_succ]
        refine getD_replicate _ _ _ _ ?_
        have hlen2 : (body ++ [0]).length = body.length + 1 := by simp
        omega

/-! ## Claim theorems -/

/-- C1 counterexample: with marker 0x01, buffer [0x01], and output sizes
exactly as the spec prescribes (3 = 1 + 2 + floor(1/254); decode buffer of
the original length), the first INPUT byte of unstuff(stuff(b, m), m) is
0x00, not the original 0x01 — the distance byte written for the removed
marker occurrence collides with the marker value itself. -/
theorem claim1_counterexample :
    stuff [1] 1 3 = .ok [1, 1, 1] ∧
    unstuff [1, 1, 1] 1 1 = .ok ([0], 2) ∧
    ¬ (([0] : List Nat).take 1 = [1]) :=
  ⟨rfl, rfl, by decide⟩

/-- C1 (amended to marker 0, the conventional COBS marker): for every input
buffer b and output sizes satisfying the stated size relations, decoding the
encoded frame returns the original buffer — the first INPUT bytes of
unstuff(stuff(b, 0), 0) equal b. -/
theorem claim1_roundtrip_marker_zero (b : List Nat) (N P : Nat)
    (hN : b.length + 2 + b.length / 254 ≤ N) (hP : b.length ≤ P) :
    ∃ e dec L, stuff b 0 N = .ok e ∧ unstuff e 0 P = .ok (dec, L) ∧
      dec.take b.length = b := by
  obtain ⟨e, hs, -, -, -, hu⟩ := unstuff_of_stuff b N P hN hP
  refine ⟨e, b ++ List.replicate (P - b.length) 0,
    (encAux 0 1 b).snd.length + 1, hs, hu, ?_⟩
  exact List.take_left b _

theorem claim1_roundtrip_witness :
    (([5] : List Nat).length + 2 + ([5] : List Nat).length / 254 ≤ 3 ∧
      ([5] : List Nat).length ≤ 1) ∧
    (∃ e dec L, stuff [5] 0 3 = .ok e ∧ unstuff e 0 1 = .ok (dec, L) ∧
      dec.take ([5] : List Nat).length = [5]) :=
  ⟨⟨by decide, by decide⟩,
    claim1_roundtrip_marker_zero [5] 3 1 (by decide) (by decide)⟩

/-- C2 counterexample: (i) with marker 0 and an oversized output buffer,
stuff([0x11], 0) into 4 bytes is [0x02, 0x11, 0x00, 0x00] — the byte at
index 2 equals the marker yet 2 ≠ OUTPUT - 1 = 3; (ii) with marker 0x01,
stuff([0x01], 0x01) into 3 bytes is [0x01, 0x01, 0x01] — the byte at index 0
equals the marker yet 0 ≠ OUTPUT - 1 = 2. -/
theorem claim2_counterexample :
    (stuff [0x11] 0 4 = .ok [2, 0x11, 0, 0] ∧
      ([2, 0x11, 0, 0] : List Nat).getD 2 0 = 0 ∧ (2 : Nat) ≠ 4 - 1) ∧
    (stuff [1] 1 3 = .ok [1, 1, 1] ∧
      ([1, 1, 1] : List Nat).getD 0 0 = 1 ∧ (0 : Nat) ≠ 3 - 1) :=
  ⟨⟨rfl, by decide, by decide⟩, ⟨rfl, by decide, by decide⟩⟩

/-- C2 (amended to marker 0 and a contiguous terminator-plus-fill segment):
under the size bound, the bytes of stuff(b, 0) equal to the marker are
exactly the suffix starting at the frame terminator position t: every byte
before t is nonzero and every byte from t to OUTPUT - 1 is zero. -/
theorem claim2_marker_bytes_terminator_and_fill (b : List Nat) (N : Nat)
    (hN : b.length + 2 + b.length / 254 ≤ N) :
    ∃ e t, stuff b 0 N = .ok e ∧ e.length = N ∧ t < N ∧
      (∀ j, j < t → e.getD j 0 ≠ 0) ∧ (∀ j, t ≤ j → j < N → e.getD j 0 = 0) := by
  obtain ⟨e, hs, hlen, hpre, hsuf, hlt, -, -⟩ := stuff_frame_bytes b N hN
  exact ⟨e, _, hs, hlen, hlt, hpre, hsuf⟩

theorem claim2_witness :
    (([3] : List Nat).length + 2 + ([3] : List Nat).length / 254 ≤ 3) ∧
    (∃ e t, stuff [3] 0 3 = .ok e ∧ e.length = 3 ∧ t < 3 ∧
      (∀ j, j < t → e.getD j 0 ≠ 0) ∧ (∀ j, t ≤ j → j < 3 → e.getD j 0 = 0)) :=
  ⟨by decide, claim2_marker_bytes_terminator_and_fill [3] 3 (by decide)⟩

/-- C3 (code bug): on the markerless input [0x01, 0x01] with marker 0 the
decoder aborts with an index-out-of-bounds read of buff[2] (= buff[INPUT]),
not with the dedicated "missing terminator" condition; indeed the
`panic!("No marker value found!")` branch is unreachable on every input,
because the guard `i < INPUT` lets `i` reach INPUT and the read `buff[i]` at
the top of the next iteration aborts first. -/
theorem claim3_oob_read_not_missing_terminator :
    unstuff [1, 1] 0 2 = .error .oob ∧
    (∀ (buff : List Nat) (m P : Nat), unstuff buff m P ≠ .error .noMarker) := by
  constructor
  · rfl
  · intro buff m P h
    unfold unstuff at h
    by_cases h0 : 0 < buff.length
    · rw [getB_eq buff 0 h0, ok_bind] at h
      cases hl : unstuffLoop buff m buff.length 1 (u8wrapDec (buff.getD 0 0))
          (buff.getD 0 0 == 0xff) 1 (List.replicate P 0) with
      | error e =>
        rw [hl, error_bind] at h
        have he : e = .noMarker := by simpa using h
        subst he
        exact unstuffLoop_no_noMarker _ _ _ _ _ _ _ _ hl
      | ok x =>
        obtain ⟨ob, brk, oh2⟩ := x
        rw [hl, ok_bind] at h
        simp at h
    · rw [getB_err buff 0 h0, error_bind] at h
      simp at h

/-- C4 counterexample: decoding the frame [0x01, 0x01, 0x00] (marker 0)
finds the terminator at input index k = 2 after consuming 1 overhead byte,
so the claimed second result would be k - 1 = 1; the function returns 3. -/
theorem claim4_counterexample :
    unstuff [1, 1, 0] 0 1 = .ok ([0], 3) ∧ (3 : Nat) ≠ 2 - 1 :=
  ⟨rfl, by decide⟩

/-- C4 (corrected): for frames produced by stuff with marker 0 and compliant
sizes, the terminator index k minus the total overhead bytes consumed is the
decoded logical length (it equals the original buffer length), but the usize
actually returned as the second result is k + 1 — the whole frame length —
not k minus the overhead. -/
theorem claim4_second_result_is_frame_length (b : List Nat) (N P : Nat)
    (hN : b.length + 2 + b.length / 254 ≤ N) (hP : b.length ≤ P) :
    ∃ e dec k oh2, stuff b 0 N = .ok e ∧
      unstuffLoop e 0 e.length 1 (u8wrapDec (e.getD 0 0)) (e.getD 0 0 == 0xff) 1
          (List.replicate P 0) = .ok (dec, k, oh2) ∧
      k - oh2 = b.length ∧
      unstuff e 0 P = .ok (dec, k + 1) := by
  obtain ⟨e, hs, hlen, hgd, hloop, hu⟩ := unstuff_of_stuff b N P hN hP
  have hlb := encAux_snd_len_lb 0 b 1
  exact ⟨e, _, _, _, hs, hloop, by omega, hu⟩

theorem claim4_witness :
    (([7] : List Nat).length + 2 + ([7] : List Nat).length / 254 ≤ 3 ∧
      ([7] : List Nat).length ≤ 1) ∧
    (∃ e dec k oh2, stuff [7] 0 3 = .ok e ∧
      unstuffLoop e 0 e.length 1 (u8wrapDec (e.getD 0 0)) (e.getD 0 0 == 0xff) 1
          (List.replicate 1 0) = .ok (dec, k, oh2) ∧
      k - oh2 = ([7] : List Nat).length ∧
      unstuff e 0 1 = .ok (dec, k + 1)) :=
  ⟨⟨by decide, by decide⟩,
    claim4_second_result_is_frame_length [7] 3 1 (by decide) (by decide)⟩

set_option maxRecDepth 10000 in
/-- C5 counterexample: for the 254-byte marker-free input (all 0x01 bytes,
marker 0) the terminator sits at index 255, so the frame length is 256,
whereas the claimed exact formula gives 254 + 2 + floor(254/254) = 257. -/
theorem claim5_counterexample :
    stuff (List.replicate 254 1) 0 257
      = .ok (255 :: (List.replicate 254 1 ++ [0, 0])) ∧
    (∀ j, j < 255 → ((255 : Nat) :: (List.replicate 254 1 ++ [0, 0])).getD j 0 ≠ 0) ∧
    ((255 : Nat) :: (List.replicate 254 1 ++ [0, 0])).getD 255 0 = 0 ∧
    255 + 1 ≠ 254 + 2 + 254 / 254 :=
  ⟨rfl, by decide, by decide, by decide⟩

/-- C5 (corrected from exact equality to the two-sided bound the code obeys,
for marker 0): the frame length t + 1 (t the terminator position, the first
marker byte in the output) satisfies len(b) + 2 ≤ t + 1 ≤
len(b) + 2 + floor(len(b)/254); the upper bound is not attained by all
inputs. -/
theorem claim5_frame_length_upper_bound (b : List Nat) (N : Nat)
    (hN : b.length + 2 + b.length / 254 ≤ N) :
    ∃ e t, stuff b 0 N = .ok e ∧
      (∀ j, j < t → e.getD j 0 ≠ 0) ∧ e.getD t 0 = 0 ∧
      b.length + 2 ≤ t + 1 ∧ t + 1 ≤ b.length + 2 + b.length / 254 := by
  obtain ⟨e, hs, hlen, hpre, hsuf, hlt, hlo, hhi⟩ := stuff_frame_bytes b N hN
  exact ⟨e, (encAux 0 1 b).snd.length, hs, hpre,
    hsuf _ (Nat.le_refl _) hlt, by omega, hhi⟩

theorem claim5_witness :
    (([4] : List Nat).length + 2 + ([4] : List Nat).length / 254 ≤ 3) ∧
    (∃ e t, stuff [4] 0 3 = .ok e ∧
      (∀ j, j < t → e.getD j 0 ≠ 0) ∧ e.getD t 0 = 0 ∧
      ([4] : List Nat).length + 2 ≤ t + 1 ∧
      t + 1 ≤ ([4] : List Nat).length + 2 + ([4] : List Nat).length / 254) :=
  ⟨by decide, claim5_frame_length_upper_bound [4] 3 (by decide)⟩

/-- C6: whenever OUTPUT ≥ INPUT + 2 + floor(INPUT/254), stuff never attempts
a write past OUTPUT - 1 and every distance-byte conversion fits a u8 — the
model turns each such panic site into an error and returns ok for every
marker, producing the full OUTPUT-sized buffer. -/
theorem claim6_stuff_total_under_size_bound (b : List Nat) (m N : Nat)
    (hN : b.length + 2 + b.length / 254 ≤ N) :
    ∃ e, stuff b m N = .ok e ∧ e.length = N := by
  refine ⟨_, stuff_ok m b N hN, ?_⟩
  have hub := encAux_snd_len_ub m b 1 (by omega) (by omega)
  simp only [List.length_cons, List.length_append, List.length_replicate]
  omega

theorem claim6_witness :
    (([0, 200] : List Nat).length + 2 + ([0, 200] : List Nat).length / 254 ≤ 4) ∧
    (∃ e, stuff [0, 200] 5 4 = .ok e ∧ e.length = 4) :=
  ⟨by decide, claim6_stuff_total_under_size_bound [0, 200] 5 4 (by decide)⟩

/-- C7 counterexample: with marker 0x01, e = stuff([0x01]) = [1, 1, 1]
decodes to [0x00], and re-encoding gives [2, 0, 1] ≠ e. -/
theorem claim7_counterexample :
    stuff [1] 1 3 = .ok [1, 1, 1] ∧
    unstuff [1, 1, 1] 1 1 = .ok ([0], 2) ∧
    stuff [0] 1 3 = .ok [2, 0, 1] ∧ ([2, 0, 1] : List Nat) ≠ [1, 1, 1] :=
  ⟨rfl, rfl, rfl, by decide⟩

/-- C7 (amended to marker 0, with the matching sizes the crate's own tests
use — decode buffer sized to the original input): re-encoding the decode of
any stuff-produced frame reproduces the frame exactly. -/
theorem claim7_reencode_identity_marker_zero (b : List Nat) (N : Nat)
    (hN : b.length + 2 + b.length / 254 ≤ N) :
    ∃ e dec L, stuff b 0 N = .ok e ∧ unstuff e 0 b.length = .ok (dec, L) ∧
      stuff dec 0 N = .ok e := by
  obtain ⟨e, hs, -, -, -, hu⟩ := unstuff_of_stuff b N b.length hN (Nat.le_refl _)
  refine ⟨e, b ++ List.replicate (b.length - b.length) 0, _, hs, hu, ?_⟩
  rw [show b ++ List.replicate (b.length - b.length) 0 = b from by simp]
  exact hs

theorem claim7_witness :
    (([6] : List Nat).length + 2 + ([6] : List Nat).length / 254 ≤ 3) ∧
    (∃ e dec L, stuff [6] 0 3 = .ok e ∧
      unstuff e 0 ([6] : List Nat).length = .ok (dec, L) ∧
      stuff dec 0 3 = .ok e) :=
  ⟨by decide, claim7_reencode_identity_marker_zero [6] 3 (by decide)⟩

/-- C8: decoding stops at the marker index k ≥ 1; the whole result of
unstuff (output buffer and returned length, or the abort) is identical for
any two inputs agreeing on bytes 0..k, regardless of what follows k and of
the inputs' sizes. -/
theorem claim8_decode_depends_only_on_prefix (b1 b2 : List Nat) (m P k : Nat)
    (hk : 1 ≤ k) (hk1 : k < b1.length) (hk2 : k < b2.length)
    (hagree : ∀ j, j ≤ k → b1.getD j 0 = b2.getD j 0)
    (hmk : b1.getD k 0 = m) :
    unstuff b1 m P = unstuff b2 m P := by
  unfold unstuff
  rw [getB_eq b1 0 (by omega), getB_eq b2 0 (by omega), ok_bind, ok_bind]
  rw [hagree 0 (by omega)]
  rw [unstuffLoop_congr m b1 b2 k hk1 hk2 hagree hmk b1.length 1
    (u8wrapDec (b2.getD 0 0)) b2.length 1 (b2.getD 0 0 == 0xff)
    (List.replicate P 0) (by omega) (by omega) (by omega)]

theorem claim8_witness :
    ((∀ j, j ≤ 1 → ([9, 0, 3] : List Nat).getD j 0 = ([9, 0, 8] : List Nat).getD j 0) ∧
      ([9, 0, 3] : List Nat).getD 1 0 = 0) ∧
    unstuff [9, 0, 3] 0 1 = unstuff [9, 0, 8] 0 1 :=
  ⟨⟨by decide, by decide⟩,
    claim8_decode_depends_only_on_prefix [9, 0, 3] [9, 0, 8] 0 1 1
      (by decide) (by decide) (by decide) (by decide) (by decide)⟩

/-- C9: the tracker operation, given the buffer, previous distance-byte
index and a new index, writes new_index - previous_index at the previous
index and advances to index = new_index, points_to = new_index + 255; and
every tracker state arising in a successful encoder run satisfies
points_to = index + 255. -/
theorem claim9_tracker_contract_and_invariant :
    (∀ (lm : MarkerInfo) (out : List Nat) (ni : Nat),
      lm.index ≤ ni → ni - lm.index ≤ 255 → lm.index < out.length →
      adjust_accordingly lm out ni
        = .ok (⟨ni, ni + 255⟩, out.set lm.index (ni - lm.index)))
    ∧ (∀ (m : Nat) (b : List Nat) (i oh : Nat) (lm : MarkerInfo)
        (out : List Nat) (res : List Nat × MarkerInfo × Nat),
      lm.points_to = lm.index + 255 →
      stuffLoop m b i oh lm out = .ok res →
      res.2.1.points_to = res.2.1.index + 255) :=
  ⟨adjust_eq, stuffLoop_points_invariant⟩

theorem claim9_witness :
    adjust_accordingly ⟨0, 255⟩ [9, 9] 1 = .ok (⟨1, 1 + 255⟩, List.set [9, 9] 0 (1 - 0))
    ∧ ([0, 5, 0], (⟨0, 255⟩ : MarkerInfo), 1).2.1.points_to
        = ([0, 5, 0], (⟨0, 255⟩ : MarkerInfo), 1).2.1.index + 255 :=
  ⟨claim9_tracker_contract_and_invariant.1 ⟨0, 255⟩ [9, 9] 1
      (by decide) (by decide) (by decide),
    claim9_tracker_contract_and_invariant.2 0 [5] 0 1 ⟨0, 255⟩ [0, 0, 0]
      ([0, 5, 0], ⟨0, 255⟩, 1) rfl rfl⟩

/-- C10: whenever unstuff returns, the usize second component equals k + 1,
where k is the smallest index ≥ 1 holding the marker — the length of the
frame up to and including the terminator, not the decoded payload count. -/
theorem claim10_second_component_terminator_succ (buff : List Nat)
    (m P : Nat) (dec : List Nat) (L : Nat)
    (h : unstuff buff m P = .ok (dec, L)) :
    ∃ k, L = k + 1 ∧ 1 ≤ k ∧ k < buff.length ∧ buff.getD k 0 = m ∧
      ∀ j, 1 ≤ j → j < k → buff.getD j 0 ≠ m := by
  unfold unstuff at h
  by_cases h0 : 0 < buff.length
  · rw [getB_eq buff 0 h0, ok_bind] at h
    cases hl : unstuffLoop buff m buff.length 1 (u8wrapDec (buff.getD 0 0))
        (buff.getD 0 0 == 0xff) 1 (List.replicate P 0) with
    | error e => rw [hl, error_bind] at h; simp at h
    | ok x =>
      obtain ⟨ob, k, oh2⟩ := x
      rw [hl, ok_bind] at h
      simp only [Except.ok.injEq, Prod.mk.injEq] at h
      obtain ⟨hdec, hL⟩ := h
      obtain ⟨h1k, hkl, hkm, hfirst⟩ := unstuffLoop_break_first m buff.length
        buff 1 (u8wrapDec (buff.getD 0 0)) 1 (buff.getD 0 0 == 0xff)
        (List.replicate P 0) ob k oh2 hl
      exact ⟨k, hL.symm, h1k, hkl, hkm, hfirst⟩
  · rw [getB_err buff 0 h0, error_bind] at h
    simp at h

theorem claim10_witness :
    ∃ k, (3 : Nat) = k + 1 ∧ 1 ≤ k ∧ k < ([1, 1, 0] : List Nat).length ∧
      ([1, 1, 0] : List Nat).getD k 0 = 0 ∧
      ∀ j, 1 ≤ j → j < k → ([1, 1, 0] : List Nat).getD j 0 ≠ 0 :=
  claim10_second_component_terminator_succ [1, 1, 0] 0 1 [0] 3 rfl

end Cobs
